import Mathlib

/-!
Shallow embedding of the authority-coordination core of the Suika-style
multiplayer web game (TypeScript sources: `NetworkManager.ts`, `GameSync`,
`MultiplayerGame`, `config.ts`), together with proofs settling the frozen
claims about the natural-language specification.

Conventions of the embedding:
* JavaScript numbers holding coordinates, velocities and random draws are
  modelled as `ℚ`; frame counters, indices, sizes, scores and timestamps
  (always integral in the source) as `ℕ`.
* `Record<string, T>` maps are modelled as association lists
  `List (String × T)` (or `List RoomPlayer` for the participant map, whose
  values carry their own `id` field); `Object.keys`/`Object.values` order is
  the list order.
* `T | null` and `T | undefined` fields become `Option T`.
* Asynchronous store writes are modelled as pure state transformers on the
  snapshot (`RoomState`) they produce.
-/

namespace Suika

/-! ### Constants (from `config.ts` and the head of `MultiplayerGame`) -/

def WIDTH : ℚ := 400

def HEIGHT : ℚ := 600

def CEILING_Y : ℚ := 70

def LAUNCH_Y : ℚ := 540

def GAME_OVER_Y : ℚ := 500

def TURN_TIME : ℕ := 10

def GAME_OVER_CHECK_FRAMES : ℕ := 120

def DROP_GRACE_FRAMES : ℕ := 180

/-- Source constant `MERGE_BOUNCE_MULTIPLIER = 1.2`. -/
def MERGE_BOUNCE_MULTIPLIER : ℚ := 6 / 5

def EXPLOSION_RADIUS : ℚ := 200

/-- Source constant `EXPLOSION_FORCE = 0.05`. -/
def EXPLOSION_FORCE : ℚ := 1 / 20

def MAX_FRUIT_SIZE : ℕ := 10

structure FruitData where
  size : ℕ
  radius : ℚ
  score : ℕ
deriving DecidableEq

/-- Table `FRUIT_DATA` from `config.ts` (display-only fields omitted). -/
def FRUIT_DATA : List FruitData :=
  [⟨1, 15, 0⟩, ⟨2, 22, 10⟩, ⟨3, 30, 30⟩, ⟨4, 40, 80⟩, ⟨5, 52, 150⟩,
   ⟨6, 65, 250⟩, ⟨7, 80, 400⟩, ⟨8, 95, 600⟩, ⟨9, 112, 850⟩, ⟨10, 130, 1200⟩]

/-- Evaluates `FRUIT_DATA[size - 1]?.score || 0`. -/
def fruitScore (size : ℕ) : ℕ :=
  match FRUIT_DATA.get? (size - 1) with
  | some d => d.score
  | none => 0

/-- Evaluates `FRUIT_DATA[size - 1]?.radius || 15`. -/
def fruitRadius (size : ℕ) : ℚ :=
  match FRUIT_DATA.get? (size - 1) with
  | some d => d.radius
  | none => 15

/-! ### Shared-store data model (from `network/types.ts`) -/

structure RoomPlayer where
  id : String
  name : String
  score : ℕ
  isReady : Bool
  isHost : Bool
deriving DecidableEq

structure DropRequest where
  id : String
  playerId : String
  x : ℚ
  size : ℕ
  velocityX : ℚ
  velocityY : ℚ
  timestamp : ℕ
deriving DecidableEq

structure PendingFruit where
  size : ℕ
  x : ℚ
deriving DecidableEq

structure FruitState where
  id : String
  x : ℚ
  y : ℚ
  size : ℕ
  isDropped : Bool
deriving DecidableEq

structure RoomState where
  id : String
  status : String
  players : List RoomPlayer
  playerOrder : List String
  currentPlayerIndex : ℕ
  turnStartTime : ℕ
  partyScore : ℕ
  maxFruitSize : ℕ
  fruits : List (String × FruitState)
  currentFruit : Option PendingFruit
  dropRequest : Option DropRequest
  createdAt : ℕ
deriving DecidableEq

/-! ### NetworkManager -/

/-- Embeds `NetworkManager.isHost`: the participant holding the authority flag
(first `isHost` entry of the participant map) compared with `me`. -/
def isHostOf (room : RoomState) (me : String) : Bool :=
  match room.players.find? (fun p => p.isHost) with
  | some host => host.id == me
  | none => false

/-- Embeds `NetworkManager.hasNoHost`: no participant holds the authority flag. -/
def hasNoHost (room : RoomState) : Bool :=
  ¬ room.players.any (fun p => p.isHost)

/-- The body of `NetworkManager.shouldBecomeHost`: the earliest entry of
`playerOrder` still present in the participant map
(`playerOrder.find(id => activePlayers.includes(id))`). -/
def firstActivePlayer (room : RoomState) : Option String :=
  let activePlayers := room.players.map (fun p => p.id)
  room.playerOrder.find? (fun pid => activePlayers.contains pid)

/-- Embeds `NetworkManager.shouldBecomeHost`: no participant holds the authority
flag and `me` is the earliest entry of `playerOrder` still present in the
participant map. -/
def shouldBecomeHost (room : RoomState) (me : String) : Bool :=
  if ¬ hasNoHost room then false
  else
    match firstActivePlayer room with
    | some firstActive => firstActive == me
    | none => false

/-- Embeds `NetworkManager.promoteToHost`: partial-field write
`players/{me}/isHost = true`. -/
def promoteToHost (room : RoomState) (me : String) : RoomState :=
  { room with
    players := room.players.map
      (fun p => if p.id == me then { p with isHost := true } else p) }

/-- Embeds the `MultiplayerGame.handleRoomUpdate` failover guard: promote only when
`shouldBecomeHost` holds; `none` models that no write is issued. -/
def maybePromote (room : RoomState) (me : String) : Option RoomState :=
  if shouldBecomeHost room me then some (promoteToHost room me) else none

/-- Embeds `GameSync.isMyTurn`: `playerOrder[currentPlayerIndex] === network.id`
(an out-of-range access yields `undefined`, which compares unequal). -/
def isMyTurn (room : RoomState) (me : String) : Bool :=
  room.playerOrder.get? room.currentPlayerIndex == some me

/-- Embeds `NetworkManager.nextTurn`: the turn-advancement merge write.
`playerOrderLength` mirrors `playerOrder?.length || 1`. -/
def nextTurn (room : RoomState) (nextFruitSize : ℕ) (now : ℕ) : RoomState :=
  let playerOrderLength :=
    if room.playerOrder.length = 0 then 1 else room.playerOrder.length
  { room with
    currentPlayerIndex := (room.currentPlayerIndex + 1) % playerOrderLength,
    turnStartTime := now,
    currentFruit := some ⟨nextFruitSize, 200⟩ }

/-- Embeds the guard of `MultiplayerGame.nextTurn`: the advancement write is issued only by the
entitled participant (`if (this.sync.isMyTurn) await this.sync.nextTurn`).
`none` models that no write is issued. -/
def nextTurnIfMyTurn (room : RoomState) (me : String) (nextFruitSize now : ℕ) :
    Option RoomState :=
  if isMyTurn room me then some (nextTurn room nextFruitSize now) else none

/-- The index-adjustment loop of `NetworkManager.cleanupDisconnectedPlayers`:
for each disconnected id, if its index in the old order is found and is
`≤ newIndex`, decrement (`Math.max(0, newIndex - 1)` is truncated `ℕ`
subtraction). -/
def cleanupAdjustedIndex (playerOrder disconnected : List String)
    (startIndex : ℕ) : ℕ :=
  disconnected.foldl
    (fun idx d =>
      let di := playerOrder.indexOf d
      if di < playerOrder.length ∧ di ≤ idx then idx - 1 else idx)
    startIndex

/-- Embeds `NetworkManager.cleanupDisconnectedPlayers` (authority-only): drop
`playerOrder` entries absent from the participant map, re-normalize the
index modulo the surviving order, and restart the turn if the entitled
participant vanished.  `none` models the no-write paths (nothing to clean,
or the room is deleted because nobody survives).  `randSize` stands for the
random draw `Math.floor(Math.random() * Math.min(maxFruitSize, 5)) + 1`. -/
def cleanupDisconnectedPlayers (room : RoomState) (now randSize : ℕ) :
    Option RoomState :=
  let activePlayers := room.players.map (fun p => p.id)
  let disconnectedPlayers :=
    room.playerOrder.filter (fun pid => ¬ activePlayers.contains pid)
  if disconnectedPlayers.isEmpty then none
  else
    let newPlayerOrder :=
      room.playerOrder.filter (fun pid => activePlayers.contains pid)
    if newPlayerOrder.length = 0 then none
    else
      let newIndex :=
        cleanupAdjustedIndex room.playerOrder disconnectedPlayers
          room.currentPlayerIndex % newPlayerOrder.length
      let currentTurnPlayer := room.playerOrder.get? room.currentPlayerIndex
      let needNewTurn :=
        match currentTurnPlayer with
        | some pid => disconnectedPlayers.contains pid
        | none => false
      let base := { room with
        playerOrder := newPlayerOrder, currentPlayerIndex := newIndex }
      if needNewTurn && (room.status == "playing") then
        some { base with
          turnStartTime := now, currentFruit := some ⟨randSize, 200⟩ }
      else some base

/-- Embeds `NetworkManager.endGame`: the merge write setting status to ended. -/
def endGame (room : RoomState) : RoomState := { room with status := "ended" }

/-! ### MultiplayerGame: the authority's local game model -/

/-- Essentials of a `Matter.Body` fruit: position, velocity and the size
rank.  In the source the size travels inside the body label `id_size`;
the label round-trip is embedded separately as `parseFruitLabel` and
proven to be the identity, so the size is carried directly here. -/
structure Fruit where
  x : ℚ
  y : ℚ
  size : ℕ
  vx : ℚ
  vy : ℚ
deriving DecidableEq

/-- The slice of `MultiplayerGame` private state the claims are about. -/
structure GameState where
  fruits : List (String × Fruit)
  inFlightFruits : List (String × ℚ × ℚ)
  lastDropFrame : ℕ
  lastDropPlayerId : Option String
  frameCount : ℕ
  gameOverTimer : ℕ
  maxFruitSize : ℕ
  dropRequestDoc : Option DropRequest
deriving DecidableEq

/-- Embeds `MultiplayerGame.createFruitWithId`: a circle body of the
rank's radius is added to the world map under `id`; an initial velocity,
when given, is applied (`Matter.Body.setVelocity`). -/
def createFruitWithId (g : GameState) (id : String) (x y : ℚ) (size : ℕ)
    (initialVelocity : Option (ℚ × ℚ)) : GameState :=
  let fruit : Fruit :=
    { x := x, y := y, size := size,
      vx := (initialVelocity.map Prod.fst).getD 0,
      vy := (initialVelocity.map Prod.snd).getD 0 }
  { g with fruits := g.fruits ++ [(id, fruit)] }

/-- Embeds the drop-request surfacing step of `GameSync.handleRoomUpdate`:
the pending request is surfaced (first component) only to the authority
and only when its id differs from `lastProcessedDropRequestId` (second
component, returned updated). -/
def observeDropRequest (isHost : Bool) (room : RoomState)
    (lastProcessedDropRequestId : Option String) :
    Option DropRequest × Option String :=
  match room.dropRequest with
  | some req =>
      if isHost then
        if some req.id == lastProcessedDropRequestId then
          (none, lastProcessedDropRequestId)
        else (some req, some req.id)
      else (none, lastProcessedDropRequestId)
  | none => (none, lastProcessedDropRequestId)

/-- Folds `observeDropRequest` over a sequence of snapshot pushes,
collecting the surfaced requests. -/
def observeDropRequestSeq (isHost : Bool) (rooms : List RoomState)
    (lastProcessedDropRequestId : Option String) : List DropRequest :=
  match rooms with
  | [] => []
  | room :: rest =>
      match observeDropRequest isHost room lastProcessedDropRequestId with
      | (some req, last2) => req :: observeDropRequestSeq isHost rest last2
      | (none, last2) => observeDropRequestSeq isHost rest last2

/-- Embeds `MultiplayerGame.handleDropRequest` (authority side): record
the drop frame and the requester as last launcher, create the projectile
at the request's `x` and `LAUNCH_Y` with the request's velocity, mark it
in flight, and delete the Drop Request from the shared document.
`isMyTurnFlag` is the receiving client's entitlement flag, which the
handler deliberately never consults (source comment: "no isMyTurn
check"); the C1 theorem records the result's independence from it. -/
def handleDropRequest (isHost _isMyTurnFlag : Bool) (g : GameState)
    (playerId : String) (x : ℚ) (size : ℕ) (velocityX velocityY : ℚ)
    (freshId : String) : GameState :=
  if ¬ isHost then g
  else
    let g1 := { g with
      lastDropFrame := g.frameCount, lastDropPlayerId := some playerId }
    let g2 := createFruitWithId g1 freshId x LAUNCH_Y size
      (some (velocityX, velocityY))
    let g3 := { g2 with
      inFlightFruits := g2.inFlightFruits ++ [(freshId, velocityX, velocityY)] }
    { g3 with dropRequestDoc := none }

/-- Embeds the turn-changed derivation step of `GameSync.handleRoomUpdate`
for an already-joined client: with the room `playing` and a pending spawn
present, a `turn_start` event (carrying `turnStartTime`, first component)
is emitted unless `turnStartTime` equals `lastEmittedTurnStartTime`
(second component, returned updated). -/
def turnStartStep (room : RoomState) (lastEmittedTurnStartTime : ℕ) :
    Option ℕ × ℕ :=
  if room.status == "playing" && room.currentFruit.isSome then
    if room.turnStartTime == lastEmittedTurnStartTime then
      (none, lastEmittedTurnStartTime)
    else (some room.turnStartTime, room.turnStartTime)
  else (none, lastEmittedTurnStartTime)

/-- Folds `turnStartStep` over a sequence of snapshot pushes, collecting
the emitted `turnStartTime` markers. -/
def turnStartEmits (rooms : List RoomState) (lastEmittedTurnStartTime : ℕ) :
    List ℕ :=
  match rooms with
  | [] => []
  | room :: rest =>
      match turnStartStep room lastEmittedTurnStartTime with
      | (some t, last2) => t :: turnStartEmits rest last2
      | (none, last2) => turnStartEmits rest last2

/-! ### Merge resolution and score attribution -/

/-- Outcome record of one deferred merge resolution in
`MultiplayerGame.handleCollision`. -/
structure MergeOutcome where
  removedIds : List String
  spawned : List (String × Fruit)
  burst : Option (ℚ × ℚ)
  scoreGain : ℕ
  scoreReport : Option (String × ℕ)
  newMaxFruitSize : ℕ
deriving DecidableEq

/-- Embeds the deferred merge-resolution body of
`MultiplayerGame.handleCollision` (the scheduled callback) for two
contacting fruits of equal size `size` with settled bodies `bodyA`,
`bodyB`: compute the midpoint, average the two velocities and scale by
the bounce factor, remove both sources, then either spawn one `size + 1`
fruit or — when `size + 1 ≥ MAX_FRUIT_SIZE` — produce a terminal burst
with no replacement.  The score report pairs the last launcher with the
new party score `partyScore + scoreGain` and is issued only when a last
launcher is recorded (`room && this.lastDropPlayerId`). -/
def resolveMerge (size : ℕ) (bodyA bodyB : Fruit) (idA idB freshId : String)
    (partyScore : ℕ) (lastDropPlayerId : Option String)
    (maxFruitSize : ℕ) : MergeOutcome :=
  let midX := (bodyA.x + bodyB.x) / 2
  let midY := (bodyA.y + bodyB.y) / 2
  let newSize := size + 1
  let avgVx := (bodyA.vx + bodyB.vx) * (1 / 2)
  let avgVy := (bodyA.vy + bodyB.vy) * (1 / 2)
  let combinedVx := avgVx * MERGE_BOUNCE_MULTIPLIER
  let combinedVy := avgVy * MERGE_BOUNCE_MULTIPLIER
  if newSize ≥ MAX_FRUIT_SIZE then
    let scoreGain := fruitScore MAX_FRUIT_SIZE
    { removedIds := [idA, idB], spawned := [], burst := some (midX, midY),
      scoreGain := scoreGain,
      scoreReport :=
        lastDropPlayerId.map (fun pid => (pid, partyScore + scoreGain)),
      newMaxFruitSize :=
        if maxFruitSize < MAX_FRUIT_SIZE then MAX_FRUIT_SIZE else maxFruitSize }
  else
    let scoreGain := fruitScore newSize
    { removedIds := [idA, idB],
      spawned := [(freshId, ⟨midX, midY, newSize, combinedVx, combinedVy⟩)],
      burst := none, scoreGain := scoreGain,
      scoreReport :=
        lastDropPlayerId.map (fun pid => (pid, partyScore + scoreGain)),
      newMaxFruitSize :=
        if maxFruitSize < newSize then newSize else maxFruitSize }

/-- Embeds the radial-impulse magnitude of
`MultiplayerGame.applyExplosionForce` as a function of distance from the
burst center (the source computes `distance = sqrt(dx² + dy²)` and acts
only for `0 < distance < EXPLOSION_RADIUS`). -/
def explosionForceMagnitude (distance : ℚ) : ℚ :=
  if 0 < distance ∧ distance < EXPLOSION_RADIUS then
    EXPLOSION_FORCE * (1 - distance / EXPLOSION_RADIUS)
  else 0

/-- Embeds `GameSync.reportPlayerScore` (authority-only): look the
credited participant up in the snapshot and return the
`(playerId, newScore, partyScore)` triple passed to `updateScore`;
`none` models the no-write paths. -/
def reportPlayerScore (isHost : Bool) (room : RoomState) (playerId : String)
    (scoreGain partyScore : ℕ) : Option (String × ℕ × ℕ) :=
  if ¬ isHost then none
  else
    match room.players.find? (fun p => p.id == playerId) with
    | none => none
    | some player => some (playerId, player.score + scoreGain, partyScore)

/-- Embeds `NetworkManager.updateScore`: the merge write of `partyScore`
together with `players/{playerId}/score`. -/
def updateScore (room : RoomState) (playerId : String)
    (score partyScore : ℕ) : RoomState :=
  { room with
    partyScore := partyScore,
    players := room.players.map
      (fun p => if p.id == playerId then { p with score := score } else p) }

/-- Embeds the authority branch of `MultiplayerGame.launchFruit`
(state-relevant part): record the drop frame and the authority itself as
last launcher, create the projectile at `(dropX, LAUNCH_Y)` with the
launch velocity, and mark it in flight. -/
def launchFruitHost (g : GameState) (me : String) (dropX : ℚ)
    (currentFruitSize : ℕ) (velocity : ℚ × ℚ) (freshId : String) : GameState :=
  let g1 := { g with
    lastDropFrame := g.frameCount, lastDropPlayerId := some me }
  let g2 := createFruitWithId g1 freshId dropX LAUNCH_Y currentFruitSize
    (some velocity)
  { g2 with
    inFlightFruits := g2.inFlightFruits ++ [(freshId, velocity.1, velocity.2)] }

/-! ### Match-end monitor -/

/-- Embeds the per-fruit test of `MultiplayerGame.checkFruitsOverLine`:
the fruit's lower edge is past the game-over line while it is nearly
motionless.  The source compares `sqrt(vx² + vy²) < 2`; both sides being
nonnegative this is embedded as `vx² + vy² < 4`. -/
def fruitOverLine (f : Fruit) : Bool :=
  decide (GAME_OVER_Y < f.y + fruitRadius f.size ∧ f.vx ^ 2 + f.vy ^ 2 < 4)

/-- Embeds `MultiplayerGame.checkFruitsOverLine`. -/
def checkFruitsOverLine (fruits : List (String × Fruit)) : Bool :=
  fruits.any (fun idf => fruitOverLine idf.2)

/-- Result of one `updateGameOverCheck` frame. -/
structure GameOverCheck where
  gameOverTimer : ℕ
  isOverLine : Bool
  reportedGameOver : Bool
deriving DecidableEq

/-- Embeds `MultiplayerGame.updateGameOverCheck` (authority-only): the
dwell timer increments while a qualifying fruit exists, may only start
(0 to 1) outside the post-launch grace window, resets exactly when no
fruit qualifies, and `reportGameOver` fires once the updated timer
reaches `GAME_OVER_CHECK_FRAMES`. -/
def updateGameOverCheck (isHost : Bool) (fruits : List (String × Fruit))
    (frameCount lastDropFrame gameOverTimer : ℕ) (isOverLinePrev : Bool) :
    GameOverCheck :=
  if ¬ isHost then ⟨gameOverTimer, isOverLinePrev, false⟩
  else
    let overLine := checkFruitsOverLine fruits
    let framesSinceLastDrop := frameCount - lastDropFrame
    let graceActive := framesSinceLastDrop < DROP_GRACE_FRAMES
    if overLine then
      if 0 < gameOverTimer then
        ⟨gameOverTimer + 1, true,
          decide (GAME_OVER_CHECK_FRAMES ≤ gameOverTimer + 1)⟩
      else if ¬ graceActive then
        ⟨1, true, decide (GAME_OVER_CHECK_FRAMES ≤ 1)⟩
      else
        ⟨gameOverTimer, isOverLinePrev,
          decide (GAME_OVER_CHECK_FRAMES ≤ gameOverTimer)⟩
    else ⟨0, false, false⟩

/-! ### In-flight (launch-phase) projectiles -/

/-- Embeds the boundary test of the in-flight pass at the head of
`MultiplayerGame.gameLoop`. -/
def inFlightBoundaryHit (f : Fruit) : Bool :=
  let radius := fruitRadius f.size
  decide (f.x - radius ≤ 5 ∨ WIDTH - 5 ≤ f.x + radius ∨
    f.y - radius ≤ CEILING_Y + 5 ∨ HEIGHT - 5 ≤ f.y + radius)

/-- Embeds the per-frame in-flight pass of `MultiplayerGame.gameLoop`:
each in-flight entry whose body exists either leaves the in-flight set
(boundary reached; velocity untouched that frame) or has its body's
velocity forcibly reset to the stored launch vector.  The source mutates
the world while iterating the in-flight map; over per-id unique keys
this equals the two traversals below. -/
def inFlightUpdateBody (inFlight : List (String × ℚ × ℚ))
    (idf : String × Fruit) : String × Fruit :=
  match inFlight.lookup idf.1 with
  | some v =>
      if inFlightBoundaryHit idf.2 then idf
      else (idf.1, { idf.2 with vx := v.1, vy := v.2 })
  | none => idf

/-- Membership test of the surviving in-flight set: an entry stays unless
its body exists and has reached a boundary. -/
def inFlightKeep (fruits : List (String × Fruit))
    (e : String × ℚ × ℚ) : Bool :=
  match fruits.lookup e.1 with
  | some f => ! inFlightBoundaryHit f
  | none => true

def inFlightPass (fruits : List (String × Fruit))
    (inFlight : List (String × ℚ × ℚ)) :
    List (String × Fruit) × List (String × ℚ × ℚ) :=
  (fruits.map (inFlightUpdateBody inFlight),
   inFlight.filter (inFlightKeep fruits))

/-- Embeds the in-flight release at the head of
`MultiplayerGame.handleCollision`: both parsed colliding ids (wall labels
parse to `none`) are deleted from the in-flight set, on every client and
for any collision partner. -/
def releaseOnCollision (inFlight : List (String × ℚ × ℚ))
    (idA idB : Option String) : List (String × ℚ × ℚ) :=
  let r1 := match idA with
    | some i => inFlight.filter (fun e => ! (e.1 == i))
    | none => inFlight
  match idB with
  | some i => r1.filter (fun e => ! (e.1 == i))
  | none => r1

/-! ### Weighted next-size selection -/

/-- Embeds `maxSpawn` of `MultiplayerGame.getNextFruitSize`:
`Math.min(Math.max(1, maxFruitSize - 1), 5)`. -/
def maxSpawnOf (maxFruitSize : ℕ) : ℕ := min (max 1 (maxFruitSize - 1)) 5

/-- Embeds the weight table of `getNextFruitSize`: weight
`maxSpawn - size + 1` for each candidate size `1 .. maxSpawn`. -/
def weightsFor (maxSpawn : ℕ) : List ℕ :=
  (List.range' 1 maxSpawn).map (fun size => maxSpawn - size + 1)

/-- Embeds the subtract-and-return loop of `getNextFruitSize`
(`random -= weights[i]; if (random <= 0) return i + 1`, final fallback
`return 1`); `pos` carries `i + 1`. -/
def selectByWeight : ℚ → List ℕ → ℕ → ℕ
  | _, [], _ => 1
  | r, w :: ws, pos =>
      if r - (w : ℚ) ≤ 0 then pos else selectByWeight (r - (w : ℚ)) ws (pos + 1)

/-- Embeds `MultiplayerGame.getNextFruitSize`; `r` stands for the random
draw `Math.random() * totalWeight`. -/
def getNextFruitSize (maxFruitSize : ℕ) (r : ℚ) : ℕ :=
  let maxSpawn := maxSpawnOf maxFruitSize
  if maxSpawn = 1 then 1 else selectByWeight r (weightsFor maxSpawn) 1

/-- Partial sum of the first `k` weights. -/
def cumWeight (ws : List ℕ) (k : ℕ) : ℕ := (ws.take k).sum

/-! ### Body labels (format and parse) -/

/-- Decimal digits of `n`, little-endian, by fuel recursion (so that the
kernel can evaluate it). -/
def toDecimalAux : ℕ → ℕ → List ℕ
  | 0, _ => []
  | fuel + 1, n => if n = 0 then [] else n % 10 :: toDecimalAux fuel (n / 10)

/-- Decimal digits of `n`, little-endian. -/
def toDecimalDigits (n : ℕ) : List ℕ := toDecimalAux n n

/-- JavaScript template interpolation of a nonnegative number: its
decimal digit characters, most-significant first. -/
def natToChars (n : ℕ) : List Char :=
  (toDecimalDigits n).reverse.map (fun d => Char.ofNat (48 + d))

/-- Embeds the label formatting in `createFruitWithId`: the body label is
the template `id_size`. -/
def fruitLabel (id : List Char) (size : ℕ) : List Char :=
  id ++ '_' :: natToChars size

/-- Index of the last occurrence of `c` (JS `String.lastIndexOf`,
with `none` for `-1`). -/
def lastIndexOfChar (c : Char) : List Char → Option ℕ
  | [] => none
  | a :: rest =>
      match lastIndexOfChar c rest with
      | some i => some (i + 1)
      | none => if a == c then some 0 else none

/-- Embeds JS `parseInt` on the inputs at hand: the value of the leading
run of decimal digits, `NaN` (`none`) when that run is empty. -/
def parseIntLeading (cs : List Char) : Option ℕ :=
  let ds := cs.takeWhile (fun c => c.isDigit)
  if ds.isEmpty then none
  else some (ds.foldl (fun n c => 10 * n + (c.toNat - 48)) 0)

/-- Embeds `MultiplayerGame.parseFruitLabel`: split at the last
underscore; `none` when there is none or the suffix is not numeric. -/
def parseFruitLabel (label : List Char) : Option (List Char × ℕ) :=
  match lastIndexOfChar '_' label with
  | none => none
  | some lastUnderscore =>
      let id := label.take lastUnderscore
      let sizeStr := label.drop (lastUnderscore + 1)
      match parseIntLeading sizeStr with
      | none => none
      | some size => some (id, size)

/-! ### Concrete rooms used by witnesses -/

/-- A two-participant room in mid-match, participant "a" entitled. -/
def sampleRoomA : RoomState :=
  { id := "r", status := "playing",
    players := [⟨"a", "A", 0, true, true⟩, ⟨"b", "B", 0, true, false⟩],
    playerOrder := ["a", "b"], currentPlayerIndex := 0,
    turnStartTime := 5, partyScore := 0, maxFruitSize := 1,
    fruits := [], currentFruit := none, dropRequest := none, createdAt := 0 }

/-- A room whose second ordered participant has disconnected while
holding the turn. -/
def sampleRoomB : RoomState :=
  { id := "r", status := "playing",
    players := [⟨"a", "A", 0, true, true⟩],
    playerOrder := ["a", "b"], currentPlayerIndex := 1,
    turnStartTime := 5, partyScore := 0, maxFruitSize := 1,
    fruits := [], currentFruit := none, dropRequest := none, createdAt := 0 }

/-- A room whose authority ("a") vanished: nobody holds the flag and the
earliest surviving `playerOrder` entry is "b". -/
def sampleRoomNoHost : RoomState :=
  { id := "r", status := "playing",
    players := [⟨"b", "B", 0, true, false⟩, ⟨"c", "C", 0, true, false⟩],
    playerOrder := ["a", "b", "c"], currentPlayerIndex := 0,
    turnStartTime := 5, partyScore := 0, maxFruitSize := 1,
    fruits := [], currentFruit := none, dropRequest := none, createdAt := 0 }

/-- The cleanup write produced on `sampleRoomB`. -/
def cleanupResultB : RoomState :=
  { sampleRoomB with
    playerOrder := ["a"], currentPlayerIndex := 0,
    turnStartTime := 7, currentFruit := some ⟨1, 200⟩ }

/-- A playing snapshot with pending spawn and the given `turnStartTime`. -/
def snapRoom (t : ℕ) : RoomState :=
  { sampleRoomA with turnStartTime := t, currentFruit := some ⟨1, 200⟩ }

/-- A snapshot carrying a pending Drop Request with id "q1". -/
def sampleReqRoom : RoomState :=
  { sampleRoomA with dropRequest := some ⟨"q1", "b", 150, 2, 3, -8, 1000⟩ }

/-- A snapshot carrying a different pending Drop Request, id "q2". -/
def sampleReqRoom2 : RoomState :=
  { sampleRoomA with dropRequest := some ⟨"q2", "c", 180, 1, 0, -9, 1001⟩ }

/-- An authority game state with no fruits yet and a pending request. -/
def game0 : GameState :=
  { fruits := [], inFlightFruits := [], lastDropFrame := 0,
    lastDropPlayerId := none, frameCount := 0, gameOverTimer := 0,
    maxFruitSize := 1, dropRequestDoc := some ⟨"q1", "b", 150, 2, 3, -8, 1000⟩ }

/-- A settled size-2 fruit past the game-over line and nearly motionless. -/
def overFruit : Fruit := ⟨200, 490, 2, 0, 0⟩

/-- A size-1 fruit in mid-air, away from every boundary. -/
def inFruit : Fruit := ⟨200, 300, 1, 0, -10⟩

end Suika

namespace Suika

/-! ### Theorems for claim C2 -/

/-- C2: after the entitled participant's turn-advancement write the new
`turnIndex` equals `(old + 1) mod turnOrder.length` and is a valid index
into the (unchanged) `turnOrder`; after the authority's cleanup write the
re-normalized index is a valid index into the surviving order. -/
theorem turnIndex_valid_after_advance_and_cleanup :
    (∀ (room : RoomState) (me : String) (nextFruitSize now : ℕ) (r : RoomState),
        nextTurnIfMyTurn room me nextFruitSize now = some r →
        r.playerOrder = room.playerOrder ∧
        r.currentPlayerIndex =
          (room.currentPlayerIndex + 1) % room.playerOrder.length ∧
        r.currentPlayerIndex < r.playerOrder.length) ∧
    (∀ (room : RoomState) (now randSize : ℕ) (r : RoomState),
        cleanupDisconnectedPlayers room now randSize = some r →
        r.currentPlayerIndex < r.playerOrder.length) := by
  constructor
  · intro room me nextFruitSize now r h
    simp only [nextTurnIfMyTurn] at h
    split at h
    · rename_i hmt
      injection h with h
      subst h
      have hlen : room.currentPlayerIndex < room.playerOrder.length := by
        by_contra hge
        push_neg at hge
        simp only [isMyTurn, beq_iff_eq] at hmt
        rw [List.get?_eq_none.mpr hge] at hmt
        exact Option.noConfusion hmt
      have hpos : 0 < room.playerOrder.length :=
        lt_of_le_of_lt (Nat.zero_le _) hlen
      have hne : ¬ room.playerOrder.length = 0 := Nat.pos_iff_ne_zero.mp hpos
      refine ⟨rfl, ?_, ?_⟩
      · simp [nextTurn, hne]
      · simp only [nextTurn, hne, if_false]
        exact Nat.mod_lt _ hpos
    · exact Option.noConfusion h
  · intro room now randSize r h
    simp only [cleanupDisconnectedPlayers] at h
    split at h
    · exact Option.noConfusion h
    · split at h
      · exact Option.noConfusion h
      · rename_i hlen
        split at h <;>
        · injection h with h
          subst h
          exact Nat.mod_lt _ (Nat.pos_of_ne_zero hlen)

/-- Witness for C2: the theorem applied to a concrete two-participant room
(advancement) and to a room whose entitled participant disconnected
(cleanup). -/
theorem turnIndex_valid_witness :
    (Suika.nextTurn Suika.sampleRoomA 1 6).currentPlayerIndex <
      (Suika.nextTurn Suika.sampleRoomA 1 6).playerOrder.length ∧
    Suika.cleanupResultB.currentPlayerIndex <
      Suika.cleanupResultB.playerOrder.length :=
  ⟨(turnIndex_valid_after_advance_and_cleanup.1 sampleRoomA "a" 1 6 _ rfl).2.2,
   turnIndex_valid_after_advance_and_cleanup.2 sampleRoomB 7 1 cleanupResultB
     (by decide)⟩

/-! ### Theorems for claim C6 -/

/-- C6: `shouldBecomeHost` is a pure function of the snapshot satisfied by
at most one participant — the earliest `turnOrder` entry still present in
the participant map, and only when no participant holds the authority
flag; the promotion write is gated on it and sets (only) the claimant's
own flag true. -/
theorem authority_claim_unique :
    (∀ (room : RoomState) (p q : String),
        shouldBecomeHost room p = true → shouldBecomeHost room q = true →
        p = q) ∧
    (∀ (room : RoomState) (p : String),
        shouldBecomeHost room p = true →
        hasNoHost room = true ∧ firstActivePlayer room = some p) ∧
    (∀ (room : RoomState) (me : String) (r : RoomState),
        maybePromote room me = some r →
        shouldBecomeHost room me = true ∧ r = promoteToHost room me) ∧
    (∀ (room : RoomState) (me : String) (pl : RoomPlayer),
        pl ∈ room.players →
        (pl.id = me → { pl with isHost := true } ∈ (promoteToHost room me).players) ∧
        (pl.id ≠ me → pl ∈ (promoteToHost room me).players)) := by
  have key : ∀ (room : RoomState) (p : String),
      shouldBecomeHost room p = true →
      hasNoHost room = true ∧ firstActivePlayer room = some p := by
    intro room p hp
    unfold shouldBecomeHost at hp
    by_cases hh : hasNoHost room = true
    · refine ⟨hh, ?_⟩
      rw [if_neg (by simp [hh])] at hp
      cases hfind : firstActivePlayer room with
      | none => rw [hfind] at hp; exact absurd hp (by simp)
      | some f =>
          rw [hfind] at hp
          simp only [beq_iff_eq] at hp
          exact congrArg some hp
    · rw [if_pos (by simp [Bool.not_eq_true] at hh ⊢; exact hh)] at hp
      exact absurd hp (by simp)
  refine ⟨?_, key, ?_, ?_⟩
  · intro room p q hp hq
    have h1 := (key room p hp).2
    have h2 := (key room q hq).2
    rw [h1] at h2
    exact Option.some.inj h2
  · intro room me r h
    unfold maybePromote at h
    split at h
    · rename_i hs
      exact ⟨hs, (Option.some.inj h).symm⟩
    · exact Option.noConfusion h
  · intro room me pl hmem
    have hmap := List.mem_map_of_mem
      (fun p => if p.id == me then { p with isHost := true } else p) hmem
    constructor
    · intro hid
      have heq : (fun p => if p.id == me then { p with isHost := true } else p) pl =
          { pl with isHost := true } := by
        simp [hid]
      rw [heq] at hmap
      exact hmap
    · intro hid
      have heq : (fun p => if p.id == me then { p with isHost := true } else p) pl =
          pl := by
        simp [hid]
      rw [heq] at hmap
      exact hmap

/-- Witness for C6: on a concrete authority-less room, participant "b"
(the earliest surviving order entry) satisfies the claim precondition, so
the theorem yields that nobody holds the flag and "b" is the canonical
claimant. -/
theorem authority_claim_witness :
    Suika.hasNoHost Suika.sampleRoomNoHost = true ∧
    Suika.firstActivePlayer Suika.sampleRoomNoHost = some "b" :=
  authority_claim_unique.2.1 sampleRoomNoHost "b" (by decide)

/-! ### Helper lemmas on the drop-request and turn-start derivation -/

/-- Association-list helper: appending a fresh key makes it found. -/
theorem lookup_append_of_none {β : Type} (l : List (String × β))
    (k : String) (v : β) (h : l.lookup k = none) :
    (l ++ [(k, v)]).lookup k = some v := by
  induction l with
  | nil => simp [List.lookup]
  | cons a l ih =>
      obtain ⟨ka, va⟩ := a
      by_cases hk : (k == ka) = true
      · exfalso
        simp [List.lookup, hk] at h
      · rw [Bool.not_eq_true] at hk
        simp only [List.lookup, hk] at h
        rw [List.cons_append]
        simp only [List.lookup, hk]
        exact ih h

/-- A non-surfacing observation step leaves the processed marker alone. -/
theorem observeDropRequest_none_keeps_last (isHost : Bool) (room : RoomState)
    (last last2 : Option String)
    (h : observeDropRequest isHost room last = (none, last2)) : last2 = last := by
  unfold observeDropRequest at h
  cases hdr : room.dropRequest with
  | none =>
      rw [hdr] at h
      exact (Prod.mk.injEq _ _ _ _ ▸ h).2.symm
  | some q =>
      rw [hdr] at h
      cases hb : isHost with
      | false =>
          rw [hb] at h
          simp only [Bool.false_eq_true, if_false] at h
          exact (Prod.mk.injEq _ _ _ _ ▸ h).2.symm
      | true =>
          rw [hb] at h
          simp only [if_true] at h
          by_cases hid : (some q.id == last) = true
          · rw [if_pos hid] at h
            exact (Prod.mk.injEq _ _ _ _ ▸ h).2.symm
          · rw [Bool.not_eq_true] at hid
            rw [hid] at h
            simp only [Bool.false_eq_true, if_false] at h
            exact absurd (Prod.mk.injEq _ _ _ _ ▸ h).1 (by simp)

/-- A surfacing observation step: the request came from the snapshot, only
the authority surfaces, the id differed from the marker, and the marker is
updated to the surfaced id. -/
theorem observeDropRequest_some (isHost : Bool) (room : RoomState)
    (last last2 : Option String) (req : DropRequest)
    (h : observeDropRequest isHost room last = (some req, last2)) :
    room.dropRequest = some req ∧ isHost = true ∧
    some req.id ≠ last ∧ last2 = some req.id := by
  unfold observeDropRequest at h
  cases hdr : room.dropRequest with
  | none =>
      rw [hdr] at h
      exact absurd (Prod.mk.injEq _ _ _ _ ▸ h).1 (by simp)
  | some q =>
      rw [hdr] at h
      cases hb : isHost with
      | false =>
          rw [hb] at h
          simp only [Bool.false_eq_true, if_false] at h
          exact absurd (Prod.mk.injEq _ _ _ _ ▸ h).1 (by simp)
      | true =>
          rw [hb] at h
          simp only [if_true] at h
          by_cases hid : (some q.id == last) = true
          · rw [if_pos hid] at h
            exact absurd (Prod.mk.injEq _ _ _ _ ▸ h).1 (by simp)
          · rw [Bool.not_eq_true] at hid
            rw [hid] at h
            simp only [Bool.false_eq_true, if_false] at h
            have h1 := (Prod.mk.injEq _ _ _ _ ▸ h).1
            have h2 := (Prod.mk.injEq _ _ _ _ ▸ h).2
            have hq : q = req := Option.some.inj h1
            subst hq
            refine ⟨rfl, rfl, ?_, h2.symm⟩
            intro hcon
            rw [← hcon] at hid
            simp at hid

/-- Once the marker equals the (unique) request id of every snapshot in
the sequence, nothing further is surfaced. -/
theorem observeDropRequestSeq_nil (isHost : Bool) (rooms : List RoomState)
    (i : String)
    (hall : ∀ r ∈ rooms, r.dropRequest.all (fun q => q.id == i) = true) :
    observeDropRequestSeq isHost rooms (some i) = [] := by
  induction rooms with
  | nil => rfl
  | cons room rest ih =>
      have hr := hall room (by simp)
      have hrest : ∀ r ∈ rest, r.dropRequest.all (fun q => q.id == i) = true :=
        fun r hm => hall r (by simp [hm])
      unfold observeDropRequestSeq
      rcases hstep : observeDropRequest isHost room (some i) with ⟨e, last2⟩
      cases e with
      | none =>
          have := observeDropRequest_none_keeps_last isHost room _ _ hstep
          subst this
          exact ih hrest
      | some req =>
          obtain ⟨hdr, _, hne, _⟩ := observeDropRequest_some _ _ _ _ _ hstep
          rw [hdr] at hr
          simp only [Option.all_some, beq_iff_eq] at hr
          exact absurd (congrArg some hr) hne

/-- The surfaced-request stream never carries the same id twice in a row:
each surfaced id becomes the marker the next surfacing must differ from. -/
theorem observeDropRequestSeq_chain (isHost : Bool) :
    ∀ (rooms : List RoomState) (last : Option String),
      List.Chain' (fun a b => a ≠ b)
        ((observeDropRequestSeq isHost rooms last).map (fun q => q.id)) ∧
      (∀ (i : String) (req : DropRequest) (rest : List DropRequest),
          last = some i →
          observeDropRequestSeq isHost rooms last = req :: rest →
          req.id ≠ i) := by
  intro rooms
  induction rooms with
  | nil =>
      intro last
      exact ⟨List.chain'_nil, fun _ _ _ _ h => List.noConfusion h⟩
  | cons room rest ih =>
      intro last
      unfold observeDropRequestSeq
      rcases hstep : observeDropRequest isHost room last with ⟨e, last2⟩
      cases e with
      | none =>
          have hl := observeDropRequest_none_keeps_last isHost room _ _ hstep
          subst hl
          exact ih _
      | some req =>
          obtain ⟨_, _, hneq, hlast2⟩ := observeDropRequest_some _ _ _ _ _ hstep
          subst hlast2
          constructor
          · show List.Chain' (fun a b => a ≠ b)
              ((req :: observeDropRequestSeq isHost rest (some req.id)).map
                (fun q => q.id))
            rw [List.map_cons]
            apply List.chain'_cons'.mpr
            constructor
            · intro hid hh
              rcases hseq : observeDropRequestSeq isHost rest (some req.id) with
                _ | ⟨req2, rest2⟩
              · rw [hseq] at hh
                exact absurd hh (by simp)
              · rw [hseq] at hh
                simp only [List.map_cons, List.head?_cons, Option.mem_def,
                  Option.some.injEq] at hh
                subst hh
                exact Ne.symm ((ih (some req.id)).2 req.id req2 rest2 rfl hseq)
            · exact (ih (some req.id)).1
          · show ∀ (i : String) (req2 : DropRequest) (rest2 : List DropRequest),
              last = some i →
              req :: observeDropRequestSeq isHost rest (some req.id) =
                req2 :: rest2 →
              req2.id ≠ i
            intro i req2 rest2 hlast heq
            injection heq with h1 _
            subst h1
            subst hlast
            intro hcon
            exact hneq (by rw [hcon])

/-! ### Theorems for claim C1 -/

/-- C1 (amended): a Drop Request is surfaced to the authority only when
its id differs from the last processed request id and surfacing records
that id; consecutively surfaced requests always carry distinct ids, so
redundant pushes all carrying the same request id surface (and hence
materialize) at most one projectile; the materialized projectile uses the
request's aim position and velocity; the Drop Request is deleted from the
shared document; and the handler's output does not depend on whose
logical turn it is.  (Per-request-id uniqueness over arbitrary push
sequences fails for stale redelivery; see the counterexample.) -/
theorem dropRequest_materialized_once :
    (∀ (isHost : Bool) (room : RoomState) (last last2 : Option String)
        (req : DropRequest),
        observeDropRequest isHost room last = (some req, last2) →
        room.dropRequest = some req ∧ isHost = true ∧
        some req.id ≠ last ∧ last2 = some req.id) ∧
    (∀ (isHost : Bool) (rooms : List RoomState) (i : String)
        (last : Option String),
        (∀ r ∈ rooms, r.dropRequest.all (fun q => q.id == i) = true) →
        (observeDropRequestSeq isHost rooms last).length ≤ 1) ∧
    (∀ (turnFlag : Bool) (g : GameState) (playerId : String) (x : ℚ)
        (size : ℕ) (vx vy : ℚ) (freshId : String),
        g.fruits.lookup freshId = none →
        (handleDropRequest true turnFlag g playerId x size vx vy freshId).fruits.lookup freshId =
            some ⟨x, LAUNCH_Y, size, vx, vy⟩ ∧
        (handleDropRequest true turnFlag g playerId x size vx vy freshId).dropRequestDoc = none ∧
        (handleDropRequest true turnFlag g playerId x size vx vy freshId).lastDropPlayerId =
            some playerId ∧
        (freshId, vx, vy) ∈
          (handleDropRequest true turnFlag g playerId x size vx vy freshId).inFlightFruits) ∧
    (∀ (hostFlag t1 t2 : Bool) (g : GameState) (playerId : String) (x : ℚ)
        (size : ℕ) (vx vy : ℚ) (freshId : String),
        handleDropRequest hostFlag t1 g playerId x size vx vy freshId =
          handleDropRequest hostFlag t2 g playerId x size vx vy freshId) ∧
    (∀ (isHost : Bool) (rooms : List RoomState) (last : Option String),
        List.Chain' (fun a b => a ≠ b)
          ((observeDropRequestSeq isHost rooms last).map (fun q => q.id))) := by
  refine ⟨observeDropRequest_some, ?_, ?_, ?_, ?_⟩
  · intro isHost rooms i last hall
    induction rooms generalizing last with
    | nil => simp [observeDropRequestSeq]
    | cons room rest ih =>
        have hrest : ∀ r ∈ rest, r.dropRequest.all (fun q => q.id == i) = true :=
          fun r hm => hall r (by simp [hm])
        unfold observeDropRequestSeq
        rcases hstep : observeDropRequest isHost room last with ⟨e, last2⟩
        cases e with
        | none =>
            have hl := observeDropRequest_none_keeps_last isHost room _ _ hstep
            subst hl
            exact ih _ hrest
        | some req =>
            obtain ⟨hdr, _, _, hlast2⟩ := observeDropRequest_some _ _ _ _ _ hstep
            have hr := hall room (by simp)
            rw [hdr] at hr
            simp only [Option.all_some, beq_iff_eq] at hr
            subst hlast2
            rw [hr]
            show (req :: observeDropRequestSeq isHost rest (some i)).length ≤ 1
            rw [observeDropRequestSeq_nil isHost rest i hrest]
            simp
  · intro turnFlag g playerId x size vx vy freshId hfresh
    refine ⟨?_, rfl, rfl, ?_⟩
    · exact lookup_append_of_none g.fruits freshId _ hfresh
    · simp [handleDropRequest, createFruitWithId]
  · intro hostFlag t1 t2 g playerId x size vx vy freshId
    rfl
  · intro isHost rooms last
    exact (observeDropRequestSeq_chain isHost rooms last).1

/-- Witness for C1: three redundant pushes of the same request surface at
most once, and the materialized projectile at a concrete request carries
its position and velocity. -/
theorem dropRequest_materialized_once_witness :
    (Suika.observeDropRequestSeq true
        [Suika.sampleReqRoom, Suika.sampleReqRoom, Suika.sampleReqRoom]
        none).length ≤ 1 ∧
    (Suika.handleDropRequest true false Suika.game0 "b" 150 2 3 (-8)
        "f1").fruits.lookup "f1" = some ⟨150, Suika.LAUNCH_Y, 2, 3, -8⟩ :=
  ⟨dropRequest_materialized_once.2.1 true
      [sampleReqRoom, sampleReqRoom, sampleReqRoom] "q1" none (by decide),
   (dropRequest_materialized_once.2.2.1 false game0 "b" 150 2 3 (-8) "f1"
      rfl).1⟩

/-- Counterexample for C1 as stated: over the push sequence carrying
requests q1, q2, q1 the authority's Bridge surfaces request id "q1"
twice (each surfacing triggers one materialization with a fresh fruit
id), so "at most one projectile is materialized per request id" fails
when a stale snapshot redelivers an old request after a different one
intervened — the same revisiting failure as the turn-start marker. -/
theorem dropRequest_per_id_counterexample :
    ¬ (∀ (isHost : Bool) (rooms : List RoomState) (last : Option String)
        (i : String),
        ((observeDropRequestSeq isHost rooms last).filter
          (fun q => q.id == i)).length ≤ 1) := by
  intro h
  have := h true [sampleReqRoom, sampleReqRoom2, sampleReqRoom] none "q1"
  revert this
  decide

/-- A non-emitting turn-start step keeps the last-emitted marker. -/
theorem turnStartStep_none_keeps_last (room : RoomState) (last last2 : ℕ)
    (h : turnStartStep room last = (none, last2)) : last2 = last := by
  unfold turnStartStep at h
  by_cases hc : (room.status == "playing" && room.currentFruit.isSome) = true
  · rw [if_pos hc] at h
    by_cases he : (room.turnStartTime == last) = true
    · rw [if_pos he] at h
      exact (Prod.mk.injEq _ _ _ _ ▸ h).2.symm
    · rw [Bool.not_eq_true] at he
      rw [he] at h
      simp only [Bool.false_eq_true, if_false] at h
      exact absurd (Prod.mk.injEq _ _ _ _ ▸ h).1 (by simp)
  · rw [Bool.not_eq_true] at hc
    rw [hc] at h
    simp only [Bool.false_eq_true, if_false] at h
    exact (Prod.mk.injEq _ _ _ _ ▸ h).2.symm

/-- An emitting turn-start step: the emitted marker is the snapshot's
`turnStartTime`, it differs from the last-emitted one, and it becomes the
new last-emitted marker. -/
theorem turnStartStep_some (room : RoomState) (last t last2 : ℕ)
    (h : turnStartStep room last = (some t, last2)) :
    t = room.turnStartTime ∧ t ≠ last ∧ last2 = t := by
  unfold turnStartStep at h
  by_cases hc : (room.status == "playing" && room.currentFruit.isSome) = true
  · rw [if_pos hc] at h
    by_cases he : (room.turnStartTime == last) = true
    · rw [if_pos he] at h
      exact absurd (Prod.mk.injEq _ _ _ _ ▸ h).1 (by simp)
    · rw [Bool.not_eq_true] at he
      rw [he] at h
      simp only [Bool.false_eq_true, if_false] at h
      have h1 := (Prod.mk.injEq _ _ _ _ ▸ h).1
      have h2 := (Prod.mk.injEq _ _ _ _ ▸ h).2
      have ht : t = room.turnStartTime := (Option.some.inj h1).symm
      subst ht
      refine ⟨rfl, ?_, h2.symm⟩
      intro hcon
      rw [hcon] at he
      simp at he
  · rw [Bool.not_eq_true] at hc
    rw [hc] at h
    simp only [Bool.false_eq_true, if_false] at h
    exact absurd (Prod.mk.injEq _ _ _ _ ▸ h).1 (by simp)

/-- The last-emitted marker heads a locally-distinct emission stream. -/
theorem turnStartEmits_chain_aux (rooms : List RoomState) (last : ℕ) :
    List.Chain' (fun a b => a ≠ b) (last :: turnStartEmits rooms last) := by
  induction rooms generalizing last with
  | nil => simp [turnStartEmits]
  | cons room rest ih =>
      unfold turnStartEmits
      rcases hstep : turnStartStep room last with ⟨e, last2⟩
      cases e with
      | none =>
          have hl := turnStartStep_none_keeps_last room last last2 hstep
          subst hl
          exact ih _
      | some t =>
          obtain ⟨_, hne, hl2⟩ := turnStartStep_some room last t last2 hstep
          show List.Chain' (fun a b => a ≠ b) (last :: t :: turnStartEmits rest last2)
          rw [hl2]
          exact List.chain'_cons.mpr ⟨fun hc => hne hc.symm, ih t⟩

/-- Once the marker equals the shared `turnStartTime` of every snapshot in
the sequence, nothing further is emitted. -/
theorem turnStartEmits_nil (rooms : List RoomState) (t : ℕ)
    (hall : ∀ r ∈ rooms, r.turnStartTime = t) :
    turnStartEmits rooms t = [] := by
  induction rooms with
  | nil => rfl
  | cons room rest ih =>
      have hr := hall room (by simp)
      have hrest : ∀ r ∈ rest, r.turnStartTime = t :=
        fun r hm => hall r (by simp [hm])
      unfold turnStartEmits
      rcases hstep : turnStartStep room t with ⟨e, last2⟩
      cases e with
      | none =>
          have hl := turnStartStep_none_keeps_last room t last2 hstep
          subst hl
          exact ih hrest
      | some u =>
          obtain ⟨hu, hne, _⟩ := turnStartStep_some room t u last2 hstep
          rw [hr] at hu
          exact absurd hu hne

/-! ### Theorems for claim C3 -/

/-- C3 (amended): a snapshot whose `turnStartTime` equals the value the
Bridge last emitted produces no emission; an emission always carries a
value different from the previous emission (consecutive emissions are
pairwise distinct); hence any sequence of redundant pushes sharing one
`turnStartTime` yields at most one emission.  (Per-distinct-value
uniqueness over arbitrary sequences fails; see the counterexample.) -/
theorem turnStart_emission_dedup :
    (∀ (room : RoomState) (last : ℕ),
        room.turnStartTime = last → (turnStartStep room last).1 = none) ∧
    (∀ (room : RoomState) (last t last2 : ℕ),
        turnStartStep room last = (some t, last2) →
        t = room.turnStartTime ∧ t ≠ last ∧ last2 = t) ∧
    (∀ (rooms : List RoomState) (last : ℕ),
        List.Chain' (fun a b => a ≠ b) (turnStartEmits rooms last)) ∧
    (∀ (rooms : List RoomState) (t last : ℕ),
        (∀ r ∈ rooms, r.turnStartTime = t) →
        (turnStartEmits rooms last).length ≤ 1) := by
  refine ⟨?_, turnStartStep_some, ?_, ?_⟩
  · intro room last hlast
    unfold turnStartStep
    by_cases hc : (room.status == "playing" && room.currentFruit.isSome) = true
    · rw [if_pos hc]
      rw [if_pos (by rw [hlast]; simp)]
    · rw [Bool.not_eq_true] at hc
      rw [hc]
      simp
  · intro rooms last
    have := turnStartEmits_chain_aux rooms last
    exact (List.chain'_cons'.mp this).2
  · intro rooms t last hall
    induction rooms generalizing last with
    | nil => simp [turnStartEmits]
    | cons room rest ih =>
        have hr := hall room (by simp)
        have hrest : ∀ r ∈ rest, r.turnStartTime = t :=
          fun r hm => hall r (by simp [hm])
        unfold turnStartEmits
        rcases hstep : turnStartStep room last with ⟨e, last2⟩
        cases e with
        | none =>
            have hl := turnStartStep_none_keeps_last room last last2 hstep
            subst hl
            exact ih _ hrest
        | some u =>
            obtain ⟨hu, _, hl2⟩ := turnStartStep_some room last u last2 hstep
            show (u :: turnStartEmits rest last2).length ≤ 1
            rw [hl2, hu, hr]
            rw [turnStartEmits_nil rest t hrest]
            simp

/-- Counterexample for C3 as stated: over the push sequence with
`turnStartTime` values 1, 2, 1 the Bridge emits the value 1 twice, so
"at most one turn-changed emission per distinct `turnStartedAt` value"
fails for non-monotone redelivery. -/
theorem turnStart_per_value_counterexample :
    ¬ (∀ (rooms : List RoomState) (last t : ℕ),
        (turnStartEmits rooms last).count t ≤ 1) := by
  intro h
  have := h [snapRoom 1, snapRoom 2, snapRoom 1] 0 1
  revert this
  decide

/-- Witness for C3: three redundant pushes of one logical turn emit at
most once. -/
theorem turnStart_emission_dedup_witness :
    (Suika.turnStartEmits [Suika.snapRoom 5, Suika.snapRoom 5, Suika.snapRoom 5]
        0).length ≤ 1 :=
  turnStart_emission_dedup.2.2.2 [snapRoom 5, snapRoom 5, snapRoom 5] 5 0
    (by decide)

/-! ### Theorems for claim C4 -/

/-- Counterexample for C4 as stated: merging two size-9 projectiles — a
size strictly below `MAX_FRUIT_SIZE = 10`, for which the claim demands
exactly one spawned projectile of size 10 — spawns nothing and produces
the terminal burst instead (the code bursts whenever `S + 1 ≥ MAX`, not
at `S = MAX`). -/
theorem merge_size_cap_counterexample :
    9 < MAX_FRUIT_SIZE ∧
    (resolveMerge 9 ⟨100, 90, 9, 2, 0⟩ ⟨130, 90, 9, 0, 0⟩ "a" "b" "c" 0
        (some "p") 9).spawned.length = 0 ∧
    (resolveMerge 9 ⟨100, 90, 9, 2, 0⟩ ⟨130, 90, 9, 0, 0⟩ "a" "b" "c" 0
        (some "p") 9).burst.isSome = true :=
  ⟨by norm_num [MAX_FRUIT_SIZE], by decide, by decide⟩

/-- C4 (amended): for every merge of two contacting equal-size-`S`
projectiles both sources are removed; if `S + 1 < MAX`, exactly one
projectile of size `S + 1` is spawned at the midpoint of the settled
positions with the two velocities averaged and scaled by the bounce
factor; if `S + 1 ≥ MAX` (reachable only as `S = MAX - 1`), zero
projectiles are produced, a terminal burst at the midpoint is emitted —
its radial impulse positive inside the radius, strictly decreasing with
distance, and zero from the radius boundary outward — and the session
score increases by the MAX-rank score value (given a recorded last
launcher). -/
theorem merge_outcome_correct :
    (∀ (size : ℕ) (bodyA bodyB : Fruit) (idA idB freshId : String)
        (partyScore : ℕ) (lastDrop : Option String) (maxF : ℕ),
        (resolveMerge size bodyA bodyB idA idB freshId partyScore lastDrop
            maxF).removedIds = [idA, idB] ∧
        (size + 1 < MAX_FRUIT_SIZE →
          (resolveMerge size bodyA bodyB idA idB freshId partyScore lastDrop
              maxF).spawned =
            [(freshId,
              ⟨(bodyA.x + bodyB.x) / 2, (bodyA.y + bodyB.y) / 2, size + 1,
               (bodyA.vx + bodyB.vx) * (1 / 2) * MERGE_BOUNCE_MULTIPLIER,
               (bodyA.vy + bodyB.vy) * (1 / 2) * MERGE_BOUNCE_MULTIPLIER⟩)] ∧
          (resolveMerge size bodyA bodyB idA idB freshId partyScore lastDrop
              maxF).burst = none) ∧
        (MAX_FRUIT_SIZE ≤ size + 1 →
          (resolveMerge size bodyA bodyB idA idB freshId partyScore lastDrop
              maxF).spawned = [] ∧
          (resolveMerge size bodyA bodyB idA idB freshId partyScore lastDrop
              maxF).burst =
            some ((bodyA.x + bodyB.x) / 2, (bodyA.y + bodyB.y) / 2) ∧
          (resolveMerge size bodyA bodyB idA idB freshId partyScore lastDrop
              maxF).scoreGain = fruitScore MAX_FRUIT_SIZE ∧
          (∀ pid, lastDrop = some pid →
            (resolveMerge size bodyA bodyB idA idB freshId partyScore lastDrop
                maxF).scoreReport =
              some (pid, partyScore + fruitScore MAX_FRUIT_SIZE)))) ∧
    (∀ d : ℚ, EXPLOSION_RADIUS ≤ d → explosionForceMagnitude d = 0) ∧
    (∀ d : ℚ, 0 < d → d < EXPLOSION_RADIUS → 0 < explosionForceMagnitude d) ∧
    (∀ d e : ℚ, 0 < d → d < e → e < EXPLOSION_RADIUS →
        explosionForceMagnitude e < explosionForceMagnitude d) := by
  refine ⟨?_, ?_, ?_, ?_⟩
  · intro size bodyA bodyB idA idB freshId partyScore lastDrop maxF
    by_cases hge : MAX_FRUIT_SIZE ≤ size + 1
    · refine ⟨by simp [resolveMerge, hge], fun hlt => absurd hge (by omega), ?_⟩
      intro _
      refine ⟨by simp [resolveMerge, hge], by simp [resolveMerge, hge],
        by simp [resolveMerge, hge], ?_⟩
      intro pid hpid
      simp [resolveMerge, hge, hpid]
    · have hlt : size + 1 < MAX_FRUIT_SIZE := by omega
      refine ⟨by simp [resolveMerge, hge], ?_, fun hc => absurd hc hge⟩
      intro _
      exact ⟨by simp [resolveMerge, hge], by simp [resolveMerge, hge]⟩
  · intro d hd
    have hc : ¬ (0 < d ∧ d < EXPLOSION_RADIUS) :=
      fun hand => absurd hand.2 (not_lt.mpr hd)
    unfold explosionForceMagnitude
    rw [if_neg hc]
  · intro d hd0 hdR
    unfold explosionForceMagnitude
    rw [if_pos ⟨hd0, hdR⟩]
    have hR : (0 : ℚ) < EXPLOSION_RADIUS := by norm_num [EXPLOSION_RADIUS]
    have h1 : d / EXPLOSION_RADIUS < 1 := (div_lt_one hR).mpr hdR
    have hF : (0 : ℚ) < EXPLOSION_FORCE := by norm_num [EXPLOSION_FORCE]
    have h2 : (0 : ℚ) < 1 - d / EXPLOSION_RADIUS := by linarith
    exact mul_pos hF h2
  · intro d e hd0 hde heR
    unfold explosionForceMagnitude
    have hR : (0 : ℚ) < EXPLOSION_RADIUS := by norm_num [EXPLOSION_RADIUS]
    rw [if_pos ⟨lt_trans hd0 hde, heR⟩, if_pos ⟨hd0, lt_trans hde heR⟩]
    have hF : (0 : ℚ) < EXPLOSION_FORCE := by norm_num [EXPLOSION_FORCE]
    have hdiv : d / EXPLOSION_RADIUS < e / EXPLOSION_RADIUS := by
      rw [div_eq_mul_inv, div_eq_mul_inv]
      exact mul_lt_mul_of_pos_right hde (by positivity)
    exact mul_lt_mul_of_pos_left (by linarith) hF

/-- Witness for C4: a concrete size-3 merge spawns exactly the expected
size-4 projectile at the midpoint with the bounced average velocity, and
the radial impulse at distance 100 from a burst is positive. -/
theorem merge_outcome_correct_witness :
    (Suika.resolveMerge 3 ⟨100, 90, 3, 2, 0⟩ ⟨120, 90, 3, 0, 0⟩ "a" "b" "c" 0
        (some "p") 3).spawned = [("c", ⟨110, 90, 4, 6 / 5, 0⟩)] ∧
    0 < Suika.explosionForceMagnitude 100 := by
  constructor
  · have h := (merge_outcome_correct.1 3 ⟨100, 90, 3, 2, 0⟩ ⟨120, 90, 3, 0, 0⟩
        "a" "b" "c" 0 (some "p") 3).2.1 (by norm_num [MAX_FRUIT_SIZE])
    rw [h.1]
    norm_num [Fruit.mk.injEq, MERGE_BOUNCE_MULTIPLIER]
  · exact merge_outcome_correct.2.2.1 100 (by norm_num)
      (by norm_num [EXPLOSION_RADIUS])

/-- Head-matching case of `List.find?`, stated for positional use. -/
theorem find_cons_pos {α : Type} (pred : α → Bool) (a : α) (l : List α)
    (h : pred a = true) : (a :: l).find? pred = some a := by
  simp [List.find?, h]

/-- Head-skipping case of `List.find?`, stated for positional use. -/
theorem find_cons_neg {α : Type} (pred : α → Bool) (a : α) (l : List α)
    (h : pred a = false) : (a :: l).find? pred = l.find? pred := by
  simp [List.find?, h]

/-- Updating one participant's score commutes with lookup by id. -/
theorem find_after_update (players : List RoomPlayer) (playerId : String)
    (player : RoomPlayer) (newScore : ℕ)
    (h : players.find? (fun p => p.id == playerId) = some player) :
    (players.map (fun p =>
        if p.id == playerId then { p with score := newScore } else p)).find?
      (fun p => p.id == playerId) =
      some { player with score := newScore } := by
  induction players with
  | nil => simp at h
  | cons a l ih =>
      by_cases ha : (a.id == playerId) = true
      · rw [find_cons_pos (fun (p : RoomPlayer) => p.id == playerId) a l ha] at h
        have haeq : a = player := Option.some.inj h
        subst haeq
        rw [List.map_cons]
        simp only [ha, if_true]
        exact find_cons_pos (fun (p : RoomPlayer) => p.id == playerId) _ _ ha
      · rw [Bool.not_eq_true] at ha
        rw [find_cons_neg (fun (p : RoomPlayer) => p.id == playerId) a l ha] at h
        rw [List.map_cons]
        simp only [ha, Bool.false_eq_true, if_false]
        rw [find_cons_neg (fun (p : RoomPlayer) => p.id == playerId) a _ ha]
        exact ih h

/-! ### Theorems for claim C7 -/

/-- C7: the merge score report always targets the recorded last launcher
(set to the requester on remote drop-request processing and to the
authority itself on its own launches) with the merge's score value, and
is independent of the merging projectiles' identities; applying the
report raises exactly that participant's individual score by the gain and
leaves every other participant's entry unchanged. -/
theorem merge_score_attribution :
    (∀ (size : ℕ) (bodyA bodyB : Fruit) (idA idB idA2 idB2 freshId : String)
        (partyScore : ℕ) (lastDrop : Option String) (maxF : ℕ),
        (resolveMerge size bodyA bodyB idA idB freshId partyScore lastDrop
            maxF).scoreReport =
          lastDrop.map (fun pid => (pid, partyScore +
            (resolveMerge size bodyA bodyB idA idB freshId partyScore lastDrop
              maxF).scoreGain)) ∧
        (resolveMerge size bodyA bodyB idA idB freshId partyScore lastDrop
            maxF).scoreReport =
          (resolveMerge size bodyA bodyB idA2 idB2 freshId partyScore lastDrop
            maxF).scoreReport) ∧
    (∀ (room : RoomState) (playerId : String) (player : RoomPlayer)
        (scoreGain partyScore : ℕ),
        room.players.find? (fun p => p.id == playerId) = some player →
        reportPlayerScore true room playerId scoreGain partyScore =
          some (playerId, player.score + scoreGain, partyScore) ∧
        (updateScore room playerId (player.score + scoreGain)
            partyScore).players.find? (fun p => p.id == playerId) =
          some { player with score := player.score + scoreGain } ∧
        (updateScore room playerId (player.score + scoreGain)
            partyScore).partyScore = partyScore ∧
        (∀ q ∈ room.players, q.id ≠ playerId →
          q ∈ (updateScore room playerId (player.score + scoreGain)
            partyScore).players)) ∧
    (∀ (turnFlag : Bool) (g : GameState) (playerId : String) (x : ℚ)
        (size : ℕ) (vx vy : ℚ) (freshId : String),
        (handleDropRequest true turnFlag g playerId x size vx vy
          freshId).lastDropPlayerId = some playerId) ∧
    (∀ (g : GameState) (me : String) (dropX : ℚ) (s : ℕ) (v : ℚ × ℚ)
        (fid : String),
        (launchFruitHost g me dropX s v fid).lastDropPlayerId = some me) := by
  refine ⟨?_, ?_, ?_, ?_⟩
  · intro size bodyA bodyB idA idB idA2 idB2 freshId partyScore lastDrop maxF
    by_cases hge : MAX_FRUIT_SIZE ≤ size + 1 <;>
      exact ⟨by simp [resolveMerge, hge], by simp [resolveMerge, hge]⟩
  · intro room playerId player scoreGain partyScore h
    refine ⟨?_, ?_, rfl, ?_⟩
    · unfold reportPlayerScore
      rw [h]
      simp
    · exact find_after_update room.players playerId player _ h
    · intro q hq hqid
      have hmap := List.mem_map_of_mem (fun p =>
        if p.id == playerId then { p with score := player.score + scoreGain }
        else p) hq
      have heq : (fun p =>
          if p.id == playerId then { p with score := player.score + scoreGain }
          else p) q = q := by
        simp [hqid]
      rw [heq] at hmap
      exact hmap
  · intro turnFlag g playerId x size vx vy freshId
    rfl
  · intro g me dropX s v fid
    rfl

/-- Witness for C7: a concrete size-3 merge report credits the recorded
last launcher "p" with the size-4 value, and applying the report to a
concrete room raises "b"'s score by the gain. -/
theorem merge_score_attribution_witness :
    (Suika.resolveMerge 3 ⟨100, 90, 3, 2, 0⟩ ⟨120, 90, 3, 0, 0⟩ "x" "y" "c" 0
        (some "p") 3).scoreReport = some ("p", 80) ∧
    Suika.reportPlayerScore true Suika.sampleRoomA "b" 80 80 =
      some ("b", 80, 80) := by
  constructor
  · have h := (merge_score_attribution.1 3 ⟨100, 90, 3, 2, 0⟩ ⟨120, 90, 3, 0, 0⟩
        "x" "y" "x" "y" "c" 0 (some "p") 3).1
    rw [h]
    decide
  · exact (merge_score_attribution.2.1 sampleRoomA "b" ⟨"b", "B", 0, true, false⟩
      80 80 (by decide)).1

/-! ### Theorems for claim C5 -/

/-- C5: the dwell timer never starts (zero to positive) within the
post-launch grace window; while some projectile qualifies, an
already-running timer keeps counting regardless of the last launch frame
(a fresh launch never resets it); a running timer resets exactly in
frames where no projectile qualifies; and the game-over report fires
precisely when the authority's updated timer has reached the threshold
while a projectile qualifies, whereupon the ended-status write follows. -/
theorem dwell_timer_correct :
    (∀ (fruits : List (String × Fruit)) (frameCount lastDropFrame : ℕ)
        (prev : Bool),
        frameCount - lastDropFrame < DROP_GRACE_FRAMES →
        (updateGameOverCheck true fruits frameCount lastDropFrame 0
          prev).gameOverTimer = 0 ∧
        (updateGameOverCheck true fruits frameCount lastDropFrame 0
          prev).reportedGameOver = false) ∧
    (∀ (fruits : List (String × Fruit)) (frameCount lastDropFrame timer : ℕ)
        (prev : Bool),
        0 < timer → checkFruitsOverLine fruits = true →
        (updateGameOverCheck true fruits frameCount lastDropFrame timer
          prev).gameOverTimer = timer + 1) ∧
    (∀ (fruits : List (String × Fruit)) (frameCount lastDropFrame timer : ℕ)
        (prev : Bool),
        0 < timer →
        ((updateGameOverCheck true fruits frameCount lastDropFrame timer
            prev).gameOverTimer = 0 ↔ checkFruitsOverLine fruits = false)) ∧
    (∀ (isHost : Bool) (fruits : List (String × Fruit))
        (frameCount lastDropFrame timer : ℕ) (prev : Bool),
        ((updateGameOverCheck isHost fruits frameCount lastDropFrame timer
            prev).reportedGameOver = true ↔
          (isHost = true ∧ checkFruitsOverLine fruits = true ∧
            GAME_OVER_CHECK_FRAMES ≤
              (updateGameOverCheck isHost fruits frameCount lastDropFrame
                timer prev).gameOverTimer))) ∧
    (∀ room : RoomState, (endGame room).status = "ended") := by
  refine ⟨?_, ?_, ?_, ?_, fun room => rfl⟩
  · intro fruits frameCount lastDropFrame prev hgrace
    constructor <;>
    · simp only [updateGameOverCheck]
      split_ifs <;> first | rfl | omega
  · intro fruits frameCount lastDropFrame timer prev ht hov
    simp only [updateGameOverCheck]
    split_ifs <;> first | rfl | omega | simp_all
  · intro fruits frameCount lastDropFrame timer prev ht
    simp only [updateGameOverCheck]
    split_ifs <;> first | omega | simp_all
  · intro isHost fruits frameCount lastDropFrame timer prev
    simp only [updateGameOverCheck]
    split_ifs <;> simp_all [decide_eq_true_eq]

/-- Witness for C5: with a qualifying fruit present, a zero timer stays
zero inside the grace window (frame 10 after a launch at frame 0), while
a running timer of 5 keeps counting past the grace window. -/
theorem dwell_timer_correct_witness :
    ((Suika.updateGameOverCheck true [("f", Suika.overFruit)] 10 0 0
        false).gameOverTimer = 0 ∧
      (Suika.updateGameOverCheck true [("f", Suika.overFruit)] 10 0 0
        false).reportedGameOver = false) ∧
    (Suika.updateGameOverCheck true [("f", Suika.overFruit)] 500 0 5
      false).gameOverTimer = 5 + 1 :=
  ⟨dwell_timer_correct.1 [("f", overFruit)] 10 0 false
      (by norm_num [DROP_GRACE_FRAMES]),
   dwell_timer_correct.2.1 [("f", overFruit)] 500 0 5 false (by norm_num)
      (by
        have hr : fruitRadius 2 = 22 := rfl
        simp only [checkFruitsOverLine, fruitOverLine, overFruit, hr,
          List.any_cons, List.any_nil, Bool.or_false, decide_eq_true_eq]
        norm_num [GAME_OVER_Y])⟩

/-! ### Helper lemmas on association lists -/

/-- Mapping a key-preserving function commutes with lookup. -/
theorem lookup_map_keyfix {β : Type} (G : String × β → String × β)
    (hG : ∀ e, (G e).1 = e.1) (l : List (String × β)) (k : String) (f : β)
    (h : l.lookup k = some f) : (l.map G).lookup k = some (G (k, f)).2 := by
  induction l with
  | nil => simp [List.lookup] at h
  | cons a l ih =>
      obtain ⟨ka, va⟩ := a
      by_cases hk : (k == ka) = true
      · simp only [List.lookup, hk] at h
        have hv : va = f := Option.some.inj h
        subst hv
        have hkk : k = ka := by rwa [beq_iff_eq] at hk
        subst hkk
        rw [List.map_cons]
        rcases hGe : G (k, va) with ⟨gk, gv⟩
        have : gk = k := by
          have := hG (k, va)
          rw [hGe] at this
          exact this
        subst this
        simp [List.lookup, hGe]
      · rw [Bool.not_eq_true] at hk
        simp only [List.lookup, hk] at h
        rw [List.map_cons]
        rcases hGe : G (ka, va) with ⟨gk, gv⟩
        have hgk : gk = ka := by
          have := hG (ka, va)
          rw [hGe] at this
          exact this
        subst hgk
        simp only [List.lookup, hk]
        exact ih h

/-- Mapping a key-preserving function that fixes every entry at key `k`
leaves lookup at `k` unchanged. -/
theorem lookup_map_keyfix_id {β : Type} (G : String × β → String × β)
    (hG : ∀ e, (G e).1 = e.1) (l : List (String × β)) (k : String)
    (hid : ∀ f, G (k, f) = (k, f)) :
    (l.map G).lookup k = l.lookup k := by
  induction l with
  | nil => rfl
  | cons a l ih =>
      obtain ⟨ka, va⟩ := a
      rw [List.map_cons]
      by_cases hk : (k == ka) = true
      · have hkk : k = ka := by rwa [beq_iff_eq] at hk
        subst hkk
        rw [hid va]
        simp [List.lookup]
      · rw [Bool.not_eq_true] at hk
        rcases hGe : G (ka, va) with ⟨gk, gv⟩
        have hgk : gk = ka := by
          have := hG (ka, va)
          rw [hGe] at this
          exact this
        subst hgk
        simp only [List.lookup, hk]
        exact ih

/-- A successful lookup produces a member of the list. -/
theorem mem_of_lookup {β : Type} (l : List (String × β)) (k : String) (v : β)
    (h : l.lookup k = some v) : (k, v) ∈ l := by
  induction l with
  | nil => simp [List.lookup] at h
  | cons a l ih =>
      obtain ⟨ka, va⟩ := a
      by_cases hk : (k == ka) = true
      · simp only [List.lookup, hk] at h
        have hv : va = v := Option.some.inj h
        have hkk : k = ka := by rwa [beq_iff_eq] at hk
        subst hv; subst hkk
        exact List.mem_cons_self _ _
      · rw [Bool.not_eq_true] at hk
        simp only [List.lookup, hk] at h
        exact List.mem_cons_of_mem _ (ih h)

/-- The in-flight body update preserves keys. -/
theorem inFlightUpdateBody_keyfix (inFlight : List (String × ℚ × ℚ))
    (e : String × Fruit) : (inFlightUpdateBody inFlight e).1 = e.1 := by
  unfold inFlightUpdateBody
  rcases hl : inFlight.lookup e.1 with _ | w
  · rfl
  · by_cases hb : inFlightBoundaryHit e.2 = true
    · simp [hb]
    · rw [Bool.not_eq_true] at hb
      simp [hb]

/-! ### Theorems for claim C8 -/

/-- C8: every frame, an in-flight projectile whose circle is clear of the
arena boundaries has its velocity reset to its recorded launch vector and
stays in-flight; one whose circle reaches a boundary leaves the in-flight
set (that frame the pass leaves it alone); any collision removes both
parsed participants from the in-flight set; and a projectile not in the
in-flight set is never touched by the pass. -/
theorem inflight_velocity_override :
    (∀ (fruits : List (String × Fruit)) (inFlight : List (String × ℚ × ℚ))
        (id : String) (f : Fruit) (v : ℚ × ℚ),
        fruits.lookup id = some f → inFlight.lookup id = some v →
        inFlightBoundaryHit f = false →
        (inFlightPass fruits inFlight).1.lookup id =
            some { f with vx := v.1, vy := v.2 } ∧
        (id, v) ∈ (inFlightPass fruits inFlight).2) ∧
    (∀ (fruits : List (String × Fruit)) (inFlight : List (String × ℚ × ℚ))
        (id : String) (f : Fruit),
        fruits.lookup id = some f → inFlightBoundaryHit f = true →
        ∀ v, (id, v) ∉ (inFlightPass fruits inFlight).2) ∧
    (∀ (inFlight : List (String × ℚ × ℚ)) (i : String)
        (optB : Option String) (e : String × ℚ × ℚ),
        e ∈ releaseOnCollision inFlight (some i) optB → e.1 ≠ i) ∧
    (∀ (inFlight : List (String × ℚ × ℚ)) (optA : Option String)
        (i : String) (e : String × ℚ × ℚ),
        e ∈ releaseOnCollision inFlight optA (some i) → e.1 ≠ i) ∧
    (∀ (fruits : List (String × Fruit)) (inFlight : List (String × ℚ × ℚ))
        (id : String),
        inFlight.lookup id = none →
        (inFlightPass fruits inFlight).1.lookup id = fruits.lookup id) := by
  refine ⟨?_, ?_, ?_, ?_, ?_⟩
  · intro fruits inFlight id f v hf hv hhit
    constructor
    · show (fruits.map (inFlightUpdateBody inFlight)).lookup id = _
      rw [lookup_map_keyfix (inFlightUpdateBody inFlight)
        (inFlightUpdateBody_keyfix inFlight) fruits id f hf]
      unfold inFlightUpdateBody
      simp only [hv, hhit, Bool.false_eq_true, if_false]
    · show (id, v) ∈ inFlight.filter (inFlightKeep fruits)
      apply List.mem_filter.mpr
      refine ⟨mem_of_lookup inFlight id v hv, ?_⟩
      unfold inFlightKeep
      simp only [hf, hhit]
      rfl
  · intro fruits inFlight id f hf hhit v hmem
    have := (List.mem_filter.mp hmem).2
    unfold inFlightKeep at this
    simp only [hf, hhit] at this
    exact absurd this (by simp)
  · intro inFlight i optB e hmem
    have hmem1 : e ∈ inFlight.filter (fun e => ! (e.1 == i)) := by
      unfold releaseOnCollision at hmem
      cases optB with
      | none => exact hmem
      | some j => exact (List.mem_filter.mp hmem).1
    have := (List.mem_filter.mp hmem1).2
    intro hcon
    rw [hcon] at this
    simp at this
  · intro inFlight optA i e hmem
    unfold releaseOnCollision at hmem
    intro hcon
    cases optA with
    | none =>
        have h2 := (List.mem_filter.mp hmem).2
        rw [hcon] at h2
        simp at h2
    | some j =>
        have h2 := (List.mem_filter.mp hmem).2
        rw [hcon] at h2
        simp at h2
  · intro fruits inFlight id hnone
    show (fruits.map (inFlightUpdateBody inFlight)).lookup id = fruits.lookup id
    apply lookup_map_keyfix_id (inFlightUpdateBody inFlight)
      (inFlightUpdateBody_keyfix inFlight)
    intro f
    unfold inFlightUpdateBody
    simp only [hnone]

/-- Witness for C8: a concrete mid-air in-flight projectile has its
velocity reset to the stored launch vector, and a collision parsed as
that projectile removes it from the in-flight set. -/
theorem inflight_velocity_override_witness :
    ([("f", Suika.inFruit)].map
        (Suika.inFlightUpdateBody [("f", ((0 : ℚ), (-10 : ℚ)))])).lookup "f" =
      some { Suika.inFruit with vx := 0, vy := -10 } ∧
    ∀ e : String × ℚ × ℚ,
      e ∈ Suika.releaseOnCollision [("f", ((0 : ℚ), (-10 : ℚ)))] (some "f")
        none → e.1 ≠ "f" :=
  ⟨(inflight_velocity_override.1 [("f", inFruit)] [("f", ((0 : ℚ), (-10 : ℚ)))]
      "f" inFruit ((0 : ℚ), (-10 : ℚ)) rfl rfl
      (by
        have hr : fruitRadius 1 = 15 := rfl
        simp only [inFlightBoundaryHit, inFruit, hr, decide_eq_false_iff_not]
        push_neg
        norm_num [WIDTH, HEIGHT, CEILING_Y])).1,
   fun e => inflight_velocity_override.2.2.1 [("f", ((0 : ℚ), (-10 : ℚ)))] "f"
     none e⟩

/-! ### Helper lemmas on the weighted selection -/

/-- The weight table has one entry per candidate size. -/
theorem weightsFor_length (m : ℕ) : (weightsFor m).length = m := by
  unfold weightsFor
  rw [List.length_map, List.length_range']

/-- Entry `i` of the weight table is `m - i` (candidate `i + 1` has weight
`m - (i + 1) + 1`). -/
theorem weightsFor_get (m i : ℕ) (h : i < m) :
    (weightsFor m)[i]? = some (m - i) := by
  unfold weightsFor
  rw [List.getElem?_map, List.getElem?_range' 1 1 h]
  show some (m - (1 + 1 * i) + 1) = some (m - i)
  congr 1
  omega

/-- Cumulative weights extend by the pointed entry. -/
theorem cumWeight_succ (ws : List ℕ) (i w : ℕ) (h : ws[i]? = some w) :
    cumWeight ws (i + 1) = cumWeight ws i + w := by
  unfold cumWeight
  rw [List.take_succ, h]
  simp [List.sum_append, Option.toList]

/-- On draws not exceeding the total weight, the walk stays within the
candidate range `pos .. pos + length - 1`. -/
theorem selectByWeight_bounds (ws : List ℕ) :
    ∀ (r : ℚ) (pos : ℕ), ws ≠ [] → r ≤ (ws.sum : ℚ) →
      pos ≤ selectByWeight r ws pos ∧
      selectByWeight r ws pos ≤ pos + ws.length - 1 := by
  induction ws with
  | nil => intro r pos h _; exact absurd rfl h
  | cons w ws ih =>
      intro r pos _ hsum
      unfold selectByWeight
      by_cases hle : r - (w : ℚ) ≤ 0
      · rw [if_pos hle]
        refine ⟨le_refl pos, ?_⟩
        simp only [List.length_cons]
        omega
      · rw [if_neg hle]
        have hwlt : (w : ℚ) < r := by linarith
        have hne : ws ≠ [] := by
          intro hnil
          subst hnil
          simp only [List.sum_cons, List.sum_nil, Nat.add_zero] at hsum
          linarith
        have hsum2 : r - (w : ℚ) ≤ (ws.sum : ℚ) := by
          rw [List.sum_cons, Nat.cast_add] at hsum
          linarith
        have hb := ih (r - w) (pos + 1) hne hsum2
        have hlen : 1 ≤ ws.length := List.length_pos.mpr hne
        constructor
        · omega
        · simp only [List.length_cons]
          omega

/-- The walk lands on candidate `s` exactly on the half-open weight
interval `(cumWeight (s-1), cumWeight s]`. -/
theorem selectByWeight_interval (ws : List ℕ) :
    ∀ (s : ℕ) (r : ℚ) (pos : ℕ),
      1 ≤ s → s ≤ ws.length →
      (cumWeight ws (s - 1) : ℚ) < r → r ≤ (cumWeight ws s : ℚ) →
      selectByWeight r ws pos = pos + (s - 1) := by
  induction ws with
  | nil =>
      intro s r pos h1 h2 _ _
      simp only [List.length_nil] at h2
      omega
  | cons w ws ih =>
      intro s r pos h1 h2 h3 h4
      match s, h1 with
      | 1, _ =>
          have hc1 : cumWeight (w :: ws) 1 = w := by
            simp [cumWeight]
          rw [hc1] at h4
          unfold selectByWeight
          rw [if_pos (by linarith)]
          simp
      | (k + 2), _ =>
          have hc : cumWeight (w :: ws) (k + 1) = w + cumWeight ws k := by
            simp [cumWeight, List.take_succ_cons]
          have hc2 : cumWeight (w :: ws) (k + 2) = w + cumWeight ws (k + 1) := by
            simp [cumWeight, List.take_succ_cons]
          have h3c : (cumWeight (w :: ws) (k + 1) : ℚ) < r := h3
          rw [hc] at h3c
          push_cast at h3c
          have hnn : (0 : ℚ) ≤ (cumWeight ws k : ℚ) := by positivity
          have hgt : ¬ (r - (w : ℚ) ≤ 0) := by linarith
          unfold selectByWeight
          rw [if_neg hgt]
          have h4c : r - (w : ℚ) ≤ (cumWeight ws (k + 1) : ℚ) := by
            rw [hc2] at h4
            push_cast at h4
            linarith
          have h3d : (cumWeight ws k : ℚ) < r - (w : ℚ) := by linarith
          have hrec := ih (k + 1) (r - w) (pos + 1) (by omega)
            (by simpa using h2) h3d h4c
          rw [hrec]
          omega

/-! ### Theorems for claim C9 -/

/-- C9: the candidate set of next-size selection is
`{1 .. min(max(1, maxSizeEverSeen - 1), 5)}` and every draw within the
total weight lands in it; candidate `s` carries weight
`maxCandidate - s + 1`, strictly decreasing in `s`; the cumulative-weight
interval on which `s` is selected has exactly that length, and every draw
in the interval `(cumWeight (s-1), cumWeight s]` selects `s`. -/
theorem next_size_weighted_selection :
    (∀ (m : ℕ) (r : ℚ), 0 ≤ r →
        r ≤ ((weightsFor (maxSpawnOf m)).sum : ℚ) →
        1 ≤ getNextFruitSize m r ∧ getNextFruitSize m r ≤ maxSpawnOf m) ∧
    (∀ m : ℕ, maxSpawnOf m = min (max 1 (m - 1)) 5) ∧
    (∀ (m s : ℕ), 1 ≤ s → s ≤ maxSpawnOf m →
        (weightsFor (maxSpawnOf m))[s - 1]? =
          some (maxSpawnOf m - s + 1)) ∧
    (∀ (m s s2 : ℕ), 1 ≤ s → s < s2 → s2 ≤ maxSpawnOf m →
        maxSpawnOf m - s2 + 1 < maxSpawnOf m - s + 1) ∧
    (∀ (m s : ℕ), 1 ≤ s → s ≤ maxSpawnOf m →
        cumWeight (weightsFor (maxSpawnOf m)) s =
          cumWeight (weightsFor (maxSpawnOf m)) (s - 1) +
            (maxSpawnOf m - s + 1)) ∧
    (∀ (m s : ℕ) (r : ℚ), 1 ≤ s → s ≤ maxSpawnOf m →
        (cumWeight (weightsFor (maxSpawnOf m)) (s - 1) : ℚ) < r →
        r ≤ (cumWeight (weightsFor (maxSpawnOf m)) s : ℚ) →
        getNextFruitSize m r = s) := by
  refine ⟨?_, fun m => rfl, ?_, ?_, ?_, ?_⟩
  · intro m r _ hsum
    unfold getNextFruitSize
    by_cases h1 : maxSpawnOf m = 1
    · rw [if_pos h1]
      omega
    · rw [if_neg h1]
      have hm1 : 1 ≤ maxSpawnOf m := by
        unfold maxSpawnOf
        omega
      have hne : weightsFor (maxSpawnOf m) ≠ [] := by
        intro hnil
        have hl := weightsFor_length (maxSpawnOf m)
        rw [hnil] at hl
        simp only [List.length_nil] at hl
        omega
      have hb := selectByWeight_bounds (weightsFor (maxSpawnOf m)) r 1 hne hsum
      have hl := weightsFor_length (maxSpawnOf m)
      omega
  · intro m s h1 h2
    rw [weightsFor_get (maxSpawnOf m) (s - 1) (by omega)]
    congr 1
    omega
  · intro m s s2 h1 h2 h3
    omega
  · intro m s h1 h2
    have hget := weightsFor_get (maxSpawnOf m) (s - 1) (by omega)
    have hc := cumWeight_succ (weightsFor (maxSpawnOf m)) (s - 1) _ hget
    have hs : s - 1 + 1 = s := by omega
    rw [hs] at hc
    rw [hc]
    congr 1
    omega
  · intro m s r h1 h2 h3 h4
    unfold getNextFruitSize
    by_cases hm : maxSpawnOf m = 1
    · rw [if_pos hm]
      rw [hm] at h2
      omega
    · rw [if_neg hm]
      have := selectByWeight_interval (weightsFor (maxSpawnOf m)) s r 1 h1
        (by rw [weightsFor_length]; exact h2) h3 h4
      rw [this]
      omega

/-- Witness for C9: with largest-seen size 5 the candidate cap is 4; the
draw 5 falls in candidate 2's interval (4, 7] and selects size 2, whose
weight table entry is 3. -/
theorem next_size_weighted_selection_witness :
    Suika.getNextFruitSize 5 5 = 2 ∧
    (Suika.weightsFor (Suika.maxSpawnOf 5))[1]? = some 3 := by
  constructor
  · apply next_size_weighted_selection.2.2.2.2.2 5 2 5 (by norm_num) (by decide)
    · have h : Suika.cumWeight (Suika.weightsFor (Suika.maxSpawnOf 5)) 1 = 4 :=
        rfl
      rw [h]
      norm_num
    · have h : Suika.cumWeight (Suika.weightsFor (Suika.maxSpawnOf 5)) 2 = 7 :=
        rfl
      rw [h]
      norm_num
  · have hx := next_size_weighted_selection.2.2.1 5 2 (by norm_num) (by decide)
    have h2 : Suika.maxSpawnOf 5 = 4 := rfl
    rw [h2] at hx
    exact hx

/-! ### Helper lemmas on decimal labels -/

/-- The fuel recursion computes the base-10 digits. -/
theorem toDecimalAux_eq (fuel : ℕ) :
    ∀ n : ℕ, n ≤ fuel → toDecimalAux fuel n = Nat.digits 10 n := by
  induction fuel with
  | zero =>
      intro n hn
      have h0 : n = 0 := by omega
      subst h0
      simp [toDecimalAux]
  | succ fuel ih =>
      intro n hn
      by_cases h0 : n = 0
      · subst h0
        simp [toDecimalAux]
      · unfold toDecimalAux
        rw [if_neg h0]
        have hdiv : n / 10 < n := Nat.div_lt_self (Nat.pos_of_ne_zero h0)
          (by norm_num)
        rw [ih (n / 10) (by omega)]
        rw [← Nat.digits_def' (by norm_num : (1 : ℕ) < 10)
          (Nat.pos_of_ne_zero h0)]

/-- The embedded digit list agrees with `Nat.digits`. -/
theorem toDecimalDigits_eq (n : ℕ) : toDecimalDigits n = Nat.digits 10 n :=
  toDecimalAux_eq n n (le_refl n)

/-- Facts about a decimal digit character: it is a digit, it decodes back
to its value, and it is not an underscore. -/
theorem digitChar_facts (d : ℕ) (h : d < 10) :
    (Char.ofNat (48 + d)).isDigit = true ∧
    (Char.ofNat (48 + d)).toNat - 48 = d ∧
    ¬ Char.ofNat (48 + d) = '_' := by
  interval_cases d <;> exact ⟨by decide, by decide, by decide⟩

/-- No character of a rendered number is an underscore. -/
theorem natToChars_no_underscore (n : ℕ) :
    ∀ c ∈ natToChars n, ¬ c = '_' := by
  intro c hc
  unfold natToChars at hc
  obtain ⟨d, hd, hcd⟩ := List.mem_map.mp hc
  have hd10 : d < 10 := by
    rw [toDecimalDigits_eq] at hd
    exact Nat.digits_lt_base (by norm_num) (List.mem_reverse.mp hd)
  rw [← hcd]
  exact (digitChar_facts d hd10).2.2

/-- A list free of `c` has no last index of `c`. -/
theorem lastIndexOfChar_none (c : Char) :
    ∀ cs : List Char, (∀ a ∈ cs, ¬ a = c) → lastIndexOfChar c cs = none := by
  intro cs
  induction cs with
  | nil => intro _; rfl
  | cons a rest ih =>
      intro hall
      unfold lastIndexOfChar
      rw [ih (fun x hx => hall x (by simp [hx]))]
      have ha : (a == c) = false := by
        rw [beq_eq_false_iff_ne]
        exact hall a (by simp)
      rw [ha]
      simp

/-- The last underscore of `id ++ '_' :: suffix` sits at `id.length` when
the suffix is underscore-free. -/
theorem lastIndexOfChar_concat (id suffix : List Char)
    (hsuffix : ∀ a ∈ suffix, ¬ a = '_') :
    lastIndexOfChar '_' (id ++ '_' :: suffix) = some id.length := by
  induction id with
  | nil =>
      simp only [List.nil_append]
      unfold lastIndexOfChar
      rw [lastIndexOfChar_none '_' suffix hsuffix]
      simp
  | cons a id ih =>
      rw [List.cons_append]
      unfold lastIndexOfChar
      rw [ih]
      simp

/-- Every rendered digit character is a digit. -/
theorem natToChars_digits (n : ℕ) :
    ∀ c ∈ natToChars n, c.isDigit = true := by
  intro c hc
  unfold natToChars at hc
  obtain ⟨d, hd, hcd⟩ := List.mem_map.mp hc
  have hd10 : d < 10 := by
    rw [toDecimalDigits_eq] at hd
    exact Nat.digits_lt_base (by norm_num) (List.mem_reverse.mp hd)
  rw [← hcd]
  exact (digitChar_facts d hd10).1

/-- A list of digit characters is its own leading digit run. -/
theorem takeWhile_digits (cs : List Char)
    (h : ∀ c ∈ cs, c.isDigit = true) :
    cs.takeWhile (fun c => c.isDigit) = cs := by
  induction cs with
  | nil => rfl
  | cons a rest ih =>
      unfold List.takeWhile
      rw [h a (by simp)]
      rw [ih (fun x hx => h x (by simp [hx]))]

/-- The decoding fold inverts the digit rendering. -/
theorem foldl_digits (ds : List ℕ) :
    (∀ d ∈ ds, d < 10) → ∀ a : ℕ,
      ((ds.reverse.map (fun d => Char.ofNat (48 + d))).foldl
        (fun n c => 10 * n + (c.toNat - 48)) a) =
      a * 10 ^ ds.length + Nat.ofDigits 10 ds := by
  induction ds with
  | nil =>
      intro _ a
      simp [Nat.ofDigits]
  | cons d ds ih =>
      intro hall a
      have hd10 : d < 10 := hall d (by simp)
      rw [List.reverse_cons, List.map_append, List.foldl_append]
      rw [ih (fun x hx => hall x (by simp [hx])) a]
      simp only [List.map_cons, List.map_nil, List.foldl_cons, List.foldl_nil]
      rw [(digitChar_facts d hd10).2.1]
      rw [Nat.ofDigits_cons]
      simp only [List.length_cons, pow_succ]
      ring

/-- Parsing the rendered number returns the number. -/
theorem parseIntLeading_natToChars (n : ℕ) (h : 1 ≤ n) :
    parseIntLeading (natToChars n) = some n := by
  unfold parseIntLeading
  rw [takeWhile_digits _ (natToChars_digits n)]
  have hne : natToChars n ≠ [] := by
    unfold natToChars
    simp only [ne_eq, List.map_eq_nil_iff, List.reverse_eq_nil_iff]
    rw [toDecimalDigits_eq]
    exact Nat.digits_ne_nil_iff_ne_zero.mpr (by omega)
  rw [if_neg (by simpa [List.isEmpty_iff] using hne)]
  have hfold := foldl_digits (toDecimalDigits n)
    (by
      intro d hd
      rw [toDecimalDigits_eq] at hd
      exact Nat.digits_lt_base (by norm_num) hd) 0
  unfold natToChars
  rw [hfold]
  rw [toDecimalDigits_eq, Nat.ofDigits_digits]
  simp

/-! ### Theorems for claim C10 -/

/-- C10: for every projectile id (underscores included) and every size
rank at least 1, parsing the constructed body label `id_size` returns
exactly the id and the size: format followed by parse is the identity. -/
theorem label_roundtrip :
    ∀ (id : List Char) (size : ℕ), 1 ≤ size →
      parseFruitLabel (fruitLabel id size) = some (id, size) := by
  intro id size hsz
  unfold fruitLabel parseFruitLabel
  rw [lastIndexOfChar_concat id (natToChars size)
    (natToChars_no_underscore size)]
  have htake : (id ++ '_' :: natToChars size).take id.length = id :=
    List.take_left id ('_' :: natToChars size)
  have hdrop :
      (id ++ '_' :: natToChars size).drop (id.length + 1) = natToChars size := by
    have hassoc : id ++ '_' :: natToChars size =
        (id ++ ['_']) ++ natToChars size := by simp
    rw [hassoc]
    have hlen : (id ++ ['_']).length = id.length + 1 := by simp
    rw [← hlen]
    exact List.drop_left _ _
  simp only [htake, hdrop, parseIntLeading_natToChars size hsz]

/-- Witness for C10: the label of an id containing underscores and digits
round-trips at size 12. -/
theorem label_roundtrip_witness :
    Suika.parseFruitLabel
        (Suika.fruitLabel ['f', '_', '3', '_', 'a'] 12) =
      some (['f', '_', '3', '_', 'a'], 12) ∧ 1 ≤ 12 :=
  ⟨label_roundtrip ['f', '_', '3', '_', 'a'] 12 (by norm_num), by norm_num⟩

end Suika
